import Mathlib

/-!
Verification of the oxc parallel linter scheduler and fixed-size allocator pool.

Shallow embedding of the core subsystem described in `spec.md`:

* `crates/oxc_allocator/src/pool_fixed_size.rs` — the fixed-size arena
  allocator pool (alignment trick, reset, dual-ownership release, pool
  checkout discipline);
* `crates/oxc_linter/src/service/runtime.rs` — the module-graph scheduler
  (entry-path sorting, wave dispatch with an encountered-paths set,
  dependency linking, per-section diagnostics, single-write fix
  application, unsupported-extension skipping).

Pointers and `usize` values are modelled as `Nat` (the code targets 64-bit
platforms; where overflow would matter the statement carries the modulus
explicitly).  Diagnostics, path components, module specifiers and module
records are abstracted to `Nat` identifiers: only their identity, not their
payload, matters for the properties verified here.
-/

namespace OxcPool

/-! ## Constants from `pool_fixed_size.rs`

`TWO_GIB`, `FOUR_GIB`, `ALLOC_SIZE` and `ALLOC_ALIGN` are taken from
`pool_fixed_size.rs` lines 19–20 and 151–152.  `BLOCK_SIZE` and
`BLOCK_ALIGN` live in `fixed_size_constants.rs`, which is not in the tree.
-/

def TWO_GIB : Nat := 2 ^ 31

def FOUR_GIB : Nat := 2 ^ 32

/-- Modelled from the spec: `BLOCK_SIZE` is defined in
`fixed_size_constants.rs` (missing from the tree); the doc comment on
`FixedSizeAllocator` describes the block as "fixed size 2 GiB − 16 bytes,
aligned on 4 GiB", so the block size is 2 GiB − 16. -/
def BLOCK_SIZE : Nat := TWO_GIB - 16

/-- Modelled from the spec: `BLOCK_ALIGN` is defined in
`fixed_size_constants.rs` (missing from the tree); the same doc comment and
the `debug_assert!(chunk_ptr % BLOCK_ALIGN == 0)` after the 4 GiB alignment
computation give `BLOCK_ALIGN` = 4 GiB. -/
def BLOCK_ALIGN : Nat := FOUR_GIB

/-- `ALLOC_SIZE` from `pool_fixed_size.rs` line 151: over-allocate by 2 GiB. -/
def ALLOC_SIZE : Nat := BLOCK_SIZE + TWO_GIB

/-- The offset computed in `FixedSizeAllocator::new` (line 249):
`alloc_ptr as usize % FOUR_GIB`. -/
def chunkOffset (allocPtr : Nat) : Nat := allocPtr % FOUR_GIB

/-- The chunk pointer computed in `FixedSizeAllocator::new` (line 251):
`alloc_ptr.add(offset)`. -/
def chunkPtr (allocPtr : Nat) : Nat := allocPtr + chunkOffset allocPtr

/-! ## Dual-ownership release (`free_fixed_size_allocator`, lines 331–363)

The state tracks the `is_double_owned` atomic flag of a
`FixedSizeAllocatorMetadata` together with how many times the backing OS
allocation has been deallocated.  `free_fixed_size_allocator` performs
`swap(false)` on the flag; if the flag was `true` it returns without
freeing, otherwise it deallocates the backing memory. -/

structure ReleaseState where
  isDoubleOwned : Bool
  freedCount : Nat
deriving DecidableEq

/-- Embeds `free_fixed_size_allocator` (`pool_fixed_size.rs` lines 331–363):
atomically swap `is_double_owned` to `false`; if it was `true`, free
nothing; otherwise deallocate the backing allocation (modelled by
incrementing `freedCount`). -/
def free_fixed_size_allocator (s : ReleaseState) : ReleaseState :=
  let wasDoubleOwned := s.isDoubleOwned
  let s' : ReleaseState := { s with isDoubleOwned := false }
  if wasDoubleOwned then s' else { s' with freedCount := s'.freedCount + 1 }

/-! ## Arena reset (`FixedSizeAllocator::reset`, lines 286–303)

The inner `Allocator` (defined in `oxc_allocator`'s bump-allocator module,
not in the tree) is modelled by its three pointers.  Addresses are `Nat`. -/

/-- Modelled from the spec: the bump `Allocator` (its module is missing from
the tree) owns one chunk; it has a data pointer (start of the usable
region), an end pointer (fixed end of the chunk) and a bump cursor.
Capacity is the distance from data pointer to end pointer. -/
structure Allocator where
  dataPtr : Nat
  endPtr : Nat
  cursor : Nat
deriving DecidableEq

/-- Modelled from the spec: `Allocator::reset` "sets the cursor back to the
end" of the chunk ("cursor back to start" of the downward bump region),
touching nothing else. -/
def Allocator.resetCursor (a : Allocator) : Allocator :=
  { a with cursor := a.endPtr }

/-- Embeds `FixedSizeAllocator::reset` (`pool_fixed_size.rs` lines 286–303):
reset the inner allocator's cursor, then round the data pointer down to the
previous multiple of `BLOCK_ALIGN`. -/
def FixedSizeAllocator.reset (a : Allocator) : Allocator :=
  let a' := a.resetCursor
  let offset := a'.dataPtr % BLOCK_ALIGN
  { a' with dataPtr := a'.dataPtr - offset }

/-- The state of the inner `Allocator` just after `FixedSizeAllocator::new`
(lines 218–284): data pointer at the 4 GiB-aligned chunk start, cursor at
the end of the chunk. -/
def FixedSizeAllocator.init (chunkStart chunkSize : Nat) : Allocator :=
  { dataPtr := chunkStart, endPtr := chunkStart + chunkSize, cursor := chunkStart + chunkSize }

/-- Embeds `AllocatorGuard::drop` (`pool_fixed_size.rs` lines 105–113):
take the allocator out of the guard, reset it, and push it onto the pool's
idle list (`AllocatorPool::add`, lines 81–84). -/
def AllocatorGuard.drop (idle : List Allocator) (a : Allocator) : List Allocator :=
  FixedSizeAllocator.reset a :: idle

/-! ## Pool checkout discipline (`AllocatorPool`, lines 31–85)

Allocators are tracked by their unique id (`next_id` counter).  A pool
state records the idle list, the multiset of ids currently held by guards,
and the `next_id` counter (= how many `FixedSizeAllocator`s were ever
constructed).  An execution is a list of events folded over the state. -/

structure PoolState where
  idle : List Nat
  held : List Nat
  nextId : Nat
deriving DecidableEq

/-- Embeds `AllocatorPool::new` (`pool_fixed_size.rs` lines 42–47): reserve
capacity only; no allocator is constructed, the id counter starts at 0. -/
def AllocatorPool.new : PoolState :=
  { idle := [], held := [], nextId := 0 }

/-- Embeds `AllocatorPool::get` (`pool_fixed_size.rs` lines 56–72): pop an
idle allocator if there is one, otherwise construct a fresh
`FixedSizeAllocator` with id `next_id` (incrementing the counter).  Either
way the resulting allocator is held by the returned guard. -/
def AllocatorPool.get (s : PoolState) : PoolState :=
  match s.idle with
  | a :: rest => { s with idle := rest, held := a :: s.held }
  | [] => { s with held := s.nextId :: s.held, nextId := s.nextId + 1 }

/-- Embeds an `AllocatorGuard` drop (`pool_fixed_size.rs` lines 105–113):
the guard holding allocator `k` returns it to the idle list.  An event
naming an id that no guard holds is a no-op (such an event cannot occur in
the real program, where the guard owns its allocator). -/
def AllocatorPool.put (s : PoolState) (k : Nat) : PoolState :=
  if k ∈ s.held then { s with held := s.held.erase k, idle := k :: s.idle } else s

inductive PoolEvent where
  | get
  | put (k : Nat)

def PoolState.step (s : PoolState) : PoolEvent → PoolState
  | PoolEvent.get => AllocatorPool.get s
  | PoolEvent.put k => AllocatorPool.put s k

/-- Run a pool execution from the freshly constructed pool. -/
def runPool (events : List PoolEvent) : PoolState :=
  events.foldl PoolState.step AllocatorPool.new

/-- The exclusivity invariant of the pool: every allocator ever constructed
(id below `next_id`) is at each moment either idle in the pool or held by
exactly one guard — it occurs exactly once in `idle ++ held` — and no other
id occurs at all. -/
def countInv (s : PoolState) : Prop :=
  ∀ i, (s.idle ++ s.held).count i = if i < s.nextId then 1 else 0

end OxcPool

namespace OxcRuntime

/-- Diagnostics are abstracted to identifiers; only how many are delivered
and for which section matters here. -/
abbrev Diag := Nat

/-- File paths are abstracted to identifiers in the scheduler model. -/
abbrev PathId := Nat

/-- Import specifiers are abstracted to identifiers. -/
abbrev Specifier := Nat

/-- `Arc<ModuleRecord>`s are abstracted to identifiers. -/
abbrev RecordId := Nat

deriving instance DecidableEq for Except

/-! ## Entry-path sorting (`Runtime::resolve_modules`, `runtime.rs` line 668)

The code sorts the deduplicated entry paths with
`self.paths.par_sort_unstable_by(|a, b| Path::new(b).cmp(Path::new(a)))`,
i.e. into descending order of Rust's `Path` ordering, which compares the
two component sequences lexicographically.  A path is modelled as its list
of components, each component abstracted to a `Nat` (component comparison
in Rust is the bytewise `OsStr` order, a linear order; only the order is
relevant).  The lexicographic order on `List Nat` is Mathlib's `List` Lex
order, which agrees with Rust's `Path` ordering: a strict prefix sorts
before its extensions, otherwise the first differing component decides. -/

/-- The comparator passed to `par_sort_unstable_by`: `b.cmp(a)` means `a`
comes before `b` exactly when `a` is greater-or-equal in path order. -/
def pathGeDesc (p q : List Nat) : Prop := q ≤ p

instance : DecidableRel pathGeDesc := fun p q => (inferInstance : Decidable (q ≤ p))

instance : IsTotal (List Nat) pathGeDesc := ⟨fun p q => le_total q p⟩

instance : IsTrans (List Nat) pathGeDesc := ⟨fun _ _ _ h1 h2 => le_trans h2 h1⟩

/-- Embeds the sort at `runtime.rs` line 668: the entry paths are sorted in
descending path order (modelled with insertion sort; the comparator is
antisymmetric on the deduplicated entry set, so the sorted result is the
unique descending arrangement). -/
def sortPathsDesc (paths : List (List Nat)) : List (List Nat) :=
  List.insertionSort pathGeDesc paths

/-! ## Per-section processing (`Runtime::process_source_section`,
`runtime.rs` lines 1419–1493)

The parser and semantic builder are external collaborators; their outputs
are the model's inputs.  Parsing fails iff `ret.errors` is non-empty; for
sources detected as Flow the parse errors are replaced by an empty list.
Semantic analysis fails iff its error list is non-empty. -/

structure ParserReturn where
  errors : List Diag
  isFlowLanguage : Bool
deriving DecidableEq

/-- Embeds `Runtime::process_source_section` (`runtime.rs` lines 1419–1493)
with the parser and the semantic builder as black boxes.  The success
payload (module record and semantic info) is irrelevant to the diagnostic
claims and elided to `Unit`. -/
def process_source_section (ret : ParserReturn) (semanticErrors : List Diag) :
    Except (List Diag) Unit :=
  if ret.errors ≠ [] then
    Except.error (if ret.isFlowLanguage then [] else ret.errors)
  else if semanticErrors ≠ [] then
    Except.error semanticErrors
  else
    Except.ok ()

/-- Embeds the failed-section branch of `Runtime::run`'s per-file callback
(`runtime.rs` lines 980–994): for each `Err(messages)` section, the
diagnostics are sent to the sink only when `messages` is non-empty. -/
def section_failure_diagnostics (sections : List (Except (List Diag) Unit)) :
    List (List Diag) :=
  sections.filterMap fun s =>
    match s with
    | Except.error msgs => if msgs ≠ [] then some msgs else none
    | Except.ok _ => none

/-- Embeds the successful-section branch of the same `filter_map`
(`runtime.rs` lines 966–994): the sections actually handed to the rule
engine are exactly the `Ok` ones. -/
def linted_sections (sections : List (Except (List Diag) Unit)) : List Unit :=
  sections.filterMap fun s =>
    match s with
    | Except.ok u => some u
    | Except.error _ => none

/-! ## Fix application and file writes (`Runtime::run`, `runtime.rs`
lines 1009–1043)

The rule engine's messages for all sections of one file are fed to a single
`Fixer` over the whole source text; its output is a `FixResult` (black
box).  `new_source_text` starts as `Cow::Borrowed(source)`; only when
`fix_result.fixed` is true is `to_mut` called (making it owned) with the
whole range replaced by the fixed code; the file is written iff the `Cow`
is owned at the end. -/

structure FixResult where
  fixed : Bool
  fixedCode : List Char
deriving DecidableEq

inductive Cow where
  | borrowed
  | owned (text : List Char)
deriving DecidableEq

/-- `replace_range(0..source.len(), fixed_code)` from `runtime.rs`
lines 1014–1018, written as the corresponding splice. -/
def replace_whole_range (sourceText fixedCode : List Char) : List Char :=
  sourceText.take 0 ++ fixedCode ++ sourceText.drop sourceText.length

/-- Embeds the `new_source_text` copy-on-write buffer at the end of the
per-file callback (`runtime.rs` lines 953 and 1009–1021). -/
def fix_buffer (fixEnabled : Bool) (sourceText : List Char) (fr : FixResult) : Cow :=
  if fixEnabled then
    if fr.fixed then Cow.owned (replace_whole_range sourceText fr.fixedCode)
    else Cow.borrowed
  else Cow.borrowed

/-- Embeds step 5 of the per-file callback (`runtime.rs` lines 1039–1043):
`write_file` is called exactly when the buffer is `Cow::Owned`.  The result
is the list of write payloads issued for this file in this run (the
callback runs once per entry file, see `run_waves_dispatch`). -/
def file_writes (fixEnabled : Bool) (sourceText : List Char) (fr : FixResult) :
    List (List Char) :=
  match fix_buffer fixEnabled sourceText fr with
  | Cow.owned t => [t]
  | Cow.borrowed => []

/-! ## Wave dispatch with the encountered-paths set
(`Runtime::resolve_modules`, `runtime.rs` lines 688–928)

The graph-mode scheduler processes entry paths in waves of `group_size`.
A parse task for a path is spawned exactly when
`encountered_paths.insert(path)` reports a fresh insertion — both for wave
entries (lines 762–780) and for dependencies discovered from completed
results (lines 808–835).  `encountered_paths` persists across waves.

The model sequentialises the result channel FIFO (the spawn decision
depends only on membership in the encountered set, which every
interleaving preserves).  `deps` maps a path to the resolved requested
paths of all its sections (resolver and parser as black boxes); `fuel`
bounds the number of results the inner loop consumes; every property
proved below holds for every fuel value.  The state threads the
encountered set `enc` (as a list), the dispatch log `disp` (one entry per
spawned parse task, in spawn order) and the queue of spawned-but-
unprocessed paths. -/

/-- Embeds the insert-then-spawn pattern: walk the requested paths, spawn
(i.e. record) each one that is not yet in the encountered set, inserting it.
Returns the grown encountered set and the newly spawned paths in order. -/
def dispatch_new : List PathId → List PathId → List PathId × List PathId
  | enc, [] => (enc, [])
  | enc, r :: rs =>
    if r ∈ enc then dispatch_new enc rs
    else ((dispatch_new (r :: enc) rs).1, r :: (dispatch_new (r :: enc) rs).2)

/-- Embeds the inner result loop (`runtime.rs` lines 787–878): while tasks
are pending, take one completed result and spawn a parse task for each of
its not-yet-encountered resolved requests.  `fuel` bounds the iterations. -/
def sched_loop (deps : PathId → List PathId) :
    Nat → List PathId → List PathId → List PathId → List PathId × List PathId
  | 0, _, enc, disp => (enc, disp)
  | _ + 1, [], enc, disp => (enc, disp)
  | fuel + 1, p :: queue, enc, disp =>
    let r := dispatch_new enc (deps p)
    sched_loop deps fuel (queue ++ r.2) r.1 (disp ++ r.2)

/-- Embeds the outer wave loop (`runtime.rs` lines 754–927): take up to
`group_size` entry paths, spawn the not-yet-encountered ones, drain the
wave's results (dispatching discovered dependencies), then continue with
the remaining entries.  Returns the final encountered set and the full
dispatch log. -/
def run_waves (deps : PathId → List PathId) (groupSize fuel : Nat) :
    List PathId → List PathId → List PathId → List PathId × List PathId
  | [], enc, disp => (enc, disp)
  | e :: rest, enc, disp =>
    let wave := e :: rest.take (groupSize - 1)
    let r1 := dispatch_new enc wave
    let r2 := sched_loop deps fuel r1.2 r1.1 (disp ++ r1.2)
    run_waves deps groupSize fuel (rest.drop (groupSize - 1)) r2.1 r2.2
termination_by entries _ _ => entries.length
decreasing_by simp [List.length_drop]; omega

/-! ## Dependency linking (`Runtime::resolve_modules` step 3,
`runtime.rs` lines 884–914)

After a wave's tasks have drained, each stashed `(module, requests)` pair
is linked: for every request, the dependency's record list in
`modules_by_path` is looked up and **its last element** is written into the
module's `loaded_modules` table under the request's specifier; if the list
is empty (no section of the dependency parsed successfully), the request is
skipped silently.  `modules_by_path[path]` holds the `Ok` section records
only (step 2.2, lines 841–850), so a dependency all of whose sections
failed maps to `[]`. -/

/-- Embeds the inner linking loop (`runtime.rs` lines 899–913) for one
module record's `loaded_modules` table, modelled as a function from
specifier to optional record. -/
def link_loaded_modules (graph : PathId → List RecordId)
    (requests : List (Specifier × PathId))
    (loadedModules : Specifier → Option RecordId) : Specifier → Option RecordId :=
  requests.foldl
    (fun tbl request =>
      match (graph request.2).getLast? with
      | some depRecord => fun s => if s = request.1 then some depRecord else tbl s
      | none => tbl)
    loadedModules

/-! ## Unsupported-extension skipping (`Runtime::process_path` /
`process_path_to_module`, `runtime.rs` lines 1214–1251)

`process_path_to_module` first extracts the path's extension (`None`
aborts), then returns `None` when `SourceType::from_path` fails and the
extension is not a partial-loader extension.  `process_path` turns `None`
into `ProcessedModule::default()` — no section records, no content — and
no diagnostic is sent on this path.  The two extension lists live in crates
outside the tree, so the model takes them as parameters; the claim holds
for every choice of the two lists. -/

/-- Models Rust's `Path::extension` on a file name (the final path
component): the portion after the last `'.'`, `none` when there is no
`'.'` or when everything precedes it (hidden files like `.gitignore`). -/
def extension (fileName : List Char) : Option (List Char) :=
  if '.' ∈ fileName then
    let revName := fileName.reverse
    let stemRev := (revName.dropWhile (· ≠ '.')).drop 1
    if stemRev = [] then none else some (revName.takeWhile (· ≠ '.')).reverse
  else none

/-- The shape of `ProcessedModule` (`runtime.rs` lines 141–163) relevant
here: the per-section records and whether content was retained. -/
structure ProcessedModule where
  sectionRecords : List (Except (List Diag) Unit)
  hasContent : Bool
deriving DecidableEq

/-- `ProcessedModule::default()`: no section records, no content. -/
def ProcessedModule.defaultValue : ProcessedModule :=
  { sectionRecords := [], hasContent := false }

/-- Embeds `Runtime::process_path` (lines 1214–1223) together with the
extension gate at the top of `process_path_to_module` (lines 1242–1251).
`SourceType::from_path` succeeds iff the extension is in `validExts`
(the `VALID_EXTENSIONS` list); `loaderExts` is
`LINT_PARTIAL_LOADER_EXTENSIONS`.  The rest of the processing (file read,
parse, …) is a black-box parameter, reached only when the gate passes; its
second component is the list of diagnostics it sends.  The gate itself
sends no diagnostics. -/
def process_path (validExts loaderExts : List (List Char)) (fileName : List Char)
    (restOfProcessing : ProcessedModule × List Diag) : ProcessedModule × List Diag :=
  match extension fileName with
  | none => (ProcessedModule.defaultValue, [])
  | some ext =>
    if ext ∉ validExts ∧ ext ∉ loaderExts then (ProcessedModule.defaultValue, [])
    else restOfProcessing

end OxcRuntime

/-! # Theorems -/

namespace OxcPool

/-- **C3**: For every base pointer `p` with `p % 2^31 = 0` (the 2 GiB
alignment guaranteed by `ALLOC_LAYOUT`), the offset `p % 2^32` computed in
`FixedSizeAllocator::new` is `0` or `2^31`; `p + offset` is 4 GiB-aligned;
exactly one of the two 2 GiB halves of the allocation is 4 GiB-aligned; and
the selected block `[p + offset, p + offset + BLOCK_SIZE)` lies inside the
allocated region `[p, p + ALLOC_SIZE)`. -/
theorem alignment_trick (p : Nat) (h : p % TWO_GIB = 0) :
    (chunkOffset p = 0 ∨ chunkOffset p = TWO_GIB) ∧
    chunkPtr p % FOUR_GIB = 0 ∧
    ((p % FOUR_GIB = 0 ∧ ¬(p + TWO_GIB) % FOUR_GIB = 0) ∨
      (¬p % FOUR_GIB = 0 ∧ (p + TWO_GIB) % FOUR_GIB = 0)) ∧
    p ≤ chunkPtr p ∧ chunkPtr p + BLOCK_SIZE ≤ p + ALLOC_SIZE := by
  simp only [chunkPtr, chunkOffset, ALLOC_SIZE, BLOCK_SIZE, BLOCK_ALIGN, TWO_GIB,
    FOUR_GIB] at *
  omega

/-- Witness for `alignment_trick` at the concrete base pointer `p = 2^31`
(2 GiB-aligned but not 4 GiB-aligned, so the second half is selected). -/
theorem alignment_trick_witness :
    (2 ^ 31) % TWO_GIB = 0 ∧
    ((chunkOffset (2 ^ 31) = 0 ∨ chunkOffset (2 ^ 31) = TWO_GIB) ∧
      chunkPtr (2 ^ 31) % FOUR_GIB = 0 ∧
      (((2 ^ 31) % FOUR_GIB = 0 ∧ ¬((2 ^ 31) + TWO_GIB) % FOUR_GIB = 0) ∨
        (¬(2 ^ 31) % FOUR_GIB = 0 ∧ ((2 ^ 31) + TWO_GIB) % FOUR_GIB = 0)) ∧
      (2 ^ 31) ≤ chunkPtr (2 ^ 31) ∧
      chunkPtr (2 ^ 31) + BLOCK_SIZE ≤ (2 ^ 31) + ALLOC_SIZE) :=
  ⟨by decide, alignment_trick (2 ^ 31) (by decide)⟩

/-- **C2 counterexample**: release is *not* idempotent.  Releasing a
double-owned allocator twice is not the same as releasing it three times'
prefix — concretely, `release (release s) ≠ release s` for
`s = {is_double_owned := true, freed := 0}`: the second release frees the
memory, and a third release would free it again (`freedCount` reaches 2),
contradicting "a repeated release never frees the memory twice". -/
theorem release_not_idempotent :
    free_fixed_size_allocator
        (free_fixed_size_allocator { isDoubleOwned := true, freedCount := 0 }) ≠
      free_fixed_size_allocator { isDoubleOwned := true, freedCount := 0 } := by
  decide

/-- **C2 (amended)**: under the dual-ownership protocol — the flag starts
`true` and each of the two owners calls `free_fixed_size_allocator` exactly
once — the first release swaps the flag to `false` and frees nothing, and
the second release (observing the flag already `false`) frees the backing
allocation exactly once. -/
theorem release_dual_ownership (s : ReleaseState) (h : s.isDoubleOwned = true) :
    (free_fixed_size_allocator s).isDoubleOwned = false ∧
    (free_fixed_size_allocator s).freedCount = s.freedCount ∧
    (free_fixed_size_allocator (free_fixed_size_allocator s)).isDoubleOwned = false ∧
    (free_fixed_size_allocator (free_fixed_size_allocator s)).freedCount
      = s.freedCount + 1 := by
  simp [free_fixed_size_allocator, h]

/-- Witness for `release_dual_ownership` at the initial double-owned state. -/
theorem release_dual_ownership_witness :
    (ReleaseState.mk true 0).isDoubleOwned = true ∧
    ((free_fixed_size_allocator ⟨true, 0⟩).isDoubleOwned = false ∧
      (free_fixed_size_allocator ⟨true, 0⟩).freedCount = 0 ∧
      (free_fixed_size_allocator (free_fixed_size_allocator ⟨true, 0⟩)).isDoubleOwned
        = false ∧
      (free_fixed_size_allocator (free_fixed_size_allocator ⟨true, 0⟩)).freedCount
        = 0 + 1) :=
  ⟨rfl, release_dual_ownership ⟨true, 0⟩ rfl⟩

/-- **C4**: dropping an `AllocatorGuard` resets the allocator — cursor back
to the end of the chunk, data pointer rounded down to the `BLOCK_ALIGN`
boundary, i.e. exactly the post-construction state, capacity unchanged —
and pushes it onto the pool's idle list.  The hypotheses are the invariants
established by `FixedSizeAllocator::new` and stated in the safety comment
of `reset`: the original data pointer is `BLOCK_ALIGN`-aligned and the data
pointer has advanced by less than `BLOCK_ALIGN`. -/
theorem reset_round_trip (chunkStart chunkSize d : Nat) (a : Allocator)
    (idle : List Allocator)
    (hAlign : chunkStart % BLOCK_ALIGN = 0) (hd : d < BLOCK_ALIGN)
    (hData : a.dataPtr = chunkStart + d) (hEnd : a.endPtr = chunkStart + chunkSize) :
    FixedSizeAllocator.reset a = FixedSizeAllocator.init chunkStart chunkSize ∧
    (FixedSizeAllocator.reset a).endPtr - (FixedSizeAllocator.reset a).dataPtr
      = chunkSize ∧
    AllocatorGuard.drop idle a = FixedSizeAllocator.init chunkStart chunkSize :: idle := by
  have key : chunkStart + d - (chunkStart + d) % BLOCK_ALIGN = chunkStart := by
    unfold BLOCK_ALIGN FOUR_GIB at *
    norm_num at *
    omega
  have hreset : FixedSizeAllocator.reset a = FixedSizeAllocator.init chunkStart chunkSize := by
    simp [FixedSizeAllocator.reset, Allocator.resetCursor, FixedSizeAllocator.init,
      hData, hEnd, key]
  refine ⟨hreset, ?_, ?_⟩
  · rw [hreset]; simp [FixedSizeAllocator.init]
  · simp [AllocatorGuard.drop, hreset]

/-- Witness for `reset_round_trip`: a used allocator whose data pointer
advanced by 5 bytes from the 4 GiB-aligned chunk start. -/
theorem reset_round_trip_witness :
    ((2 ^ 32) % BLOCK_ALIGN = 0 ∧ 5 < BLOCK_ALIGN ∧
      (Allocator.mk (2 ^ 32 + 5) (2 ^ 32 + 100) (2 ^ 32 + 40)).dataPtr = 2 ^ 32 + 5 ∧
      (Allocator.mk (2 ^ 32 + 5) (2 ^ 32 + 100) (2 ^ 32 + 40)).endPtr = 2 ^ 32 + 100) ∧
    (FixedSizeAllocator.reset ⟨2 ^ 32 + 5, 2 ^ 32 + 100, 2 ^ 32 + 40⟩
        = FixedSizeAllocator.init (2 ^ 32) 100 ∧
      (FixedSizeAllocator.reset ⟨2 ^ 32 + 5, 2 ^ 32 + 100, 2 ^ 32 + 40⟩).endPtr
          - (FixedSizeAllocator.reset ⟨2 ^ 32 + 5, 2 ^ 32 + 100, 2 ^ 32 + 40⟩).dataPtr
        = 100 ∧
      AllocatorGuard.drop [] ⟨2 ^ 32 + 5, 2 ^ 32 + 100, 2 ^ 32 + 40⟩
        = [FixedSizeAllocator.init (2 ^ 32) 100]) :=
  ⟨⟨by decide, by decide, rfl, rfl⟩,
    reset_round_trip (2 ^ 32) 100 5 ⟨2 ^ 32 + 5, 2 ^ 32 + 100, 2 ^ 32 + 40⟩ []
      (by decide) (by decide) rfl rfl⟩

theorem get_eq_pop (s : PoolState) (a : Nat) (rest : List Nat) (h : s.idle = a :: rest) :
    AllocatorPool.get s = { s with idle := rest, held := a :: s.held } := by
  unfold AllocatorPool.get
  rw [h]

theorem get_eq_construct (s : PoolState) (h : s.idle = []) :
    AllocatorPool.get s = { s with held := s.nextId :: s.held, nextId := s.nextId + 1 } := by
  unfold AllocatorPool.get
  rw [h]

theorem put_eq_return (s : PoolState) (k : Nat) (h : k ∈ s.held) :
    AllocatorPool.put s k = { s with held := s.held.erase k, idle := k :: s.idle } := by
  unfold AllocatorPool.put
  rw [if_pos h]

theorem put_eq_skip (s : PoolState) (k : Nat) (h : k ∉ s.held) :
    AllocatorPool.put s k = s := by
  unfold AllocatorPool.put
  rw [if_neg h]

theorem new_count : countInv AllocatorPool.new := by
  intro i
  simp [AllocatorPool.new]

theorem get_count (s : PoolState) (h : countInv s) : countInv (AllocatorPool.get s) := by
  intro i
  have hi2 := h i
  cases hidle : s.idle with
  | nil =>
    rw [get_eq_construct s hidle]
    show (s.idle ++ (s.nextId :: s.held)).count i = if i < s.nextId + 1 then 1 else 0
    rw [hidle]
    rw [hidle] at hi2
    simp only [List.nil_append] at hi2
    simp only [List.nil_append, List.count_cons, beq_iff_eq]
    split_ifs at hi2 ⊢ <;> omega
  | cons a rest =>
    rw [get_eq_pop s a rest hidle]
    show (rest ++ (a :: s.held)).count i = if i < s.nextId then 1 else 0
    rw [hidle] at hi2
    simp only [List.count_append, List.count_cons, beq_iff_eq] at hi2 ⊢
    split_ifs at hi2 ⊢ <;> omega

theorem put_count (s : PoolState) (k : Nat) (h : countInv s) :
    countInv (AllocatorPool.put s k) := by
  intro i
  have hi2 := h i
  by_cases hk : k ∈ s.held
  · rw [put_eq_return s k hk]
    have hone : 1 ≤ s.held.count k := List.one_le_count_iff.mpr hk
    show ((k :: s.idle) ++ s.held.erase k).count i = if i < s.nextId then 1 else 0
    by_cases hki : i = k
    · subst hki
      simp only [List.count_append, List.count_cons, List.count_erase, beq_iff_eq,
        List.cons_append] at hi2 ⊢
      split_ifs at hi2 ⊢ <;> omega
    · simp only [List.count_append, List.count_cons, List.count_erase, beq_iff_eq,
        List.cons_append] at hi2 ⊢
      split_ifs at hi2 ⊢ <;> omega
  · rw [put_eq_skip s k hk]
    exact hi2

theorem step_count (s : PoolState) (e : PoolEvent) (h : countInv s) :
    countInv (s.step e) := by
  cases e with
  | get => exact get_count s h
  | put k => exact put_count s k h

theorem step_get (s : PoolState) : s.step PoolEvent.get = AllocatorPool.get s := rfl

theorem step_put (s : PoolState) (k : Nat) :
    s.step (PoolEvent.put k) = AllocatorPool.put s k := rfl

theorem step_sum (s : PoolState) (e : PoolEvent)
    (h : s.nextId = s.idle.length + s.held.length) :
    (s.step e).nextId = (s.step e).idle.length + (s.step e).held.length := by
  cases e with
  | get =>
    rw [step_get]
    cases hidle : s.idle with
    | nil =>
      rw [get_eq_construct s hidle]
      show s.nextId + 1 = s.idle.length + (s.nextId :: s.held).length
      rw [hidle]
      rw [hidle] at h
      simp at h ⊢
      omega
    | cons a rest =>
      rw [get_eq_pop s a rest hidle]
      show s.nextId = rest.length + (a :: s.held).length
      rw [hidle] at h
      simp at h ⊢
      omega
  | put k =>
    rw [step_put]
    by_cases hk : k ∈ s.held
    · rw [put_eq_return s k hk]
      show s.nextId = (k :: s.idle).length + (s.held.erase k).length
      have hl := List.length_erase_of_mem hk
      have hpos : 1 ≤ s.held.length := by
        cases hh : s.held with
        | nil => rw [hh] at hk; simp at hk
        | cons b bs => simp [hh]
      simp [hl]
      omega
    · rw [put_eq_skip s k hk]
      exact h

theorem foldl_inv (events : List PoolEvent) (s : PoolState)
    (hsum : s.nextId = s.idle.length + s.held.length) (hcount : countInv s) :
    (events.foldl PoolState.step s).nextId
        = (events.foldl PoolState.step s).idle.length
          + (events.foldl PoolState.step s).held.length ∧
    countInv (events.foldl PoolState.step s) := by
  induction events generalizing s with
  | nil => exact ⟨hsum, hcount⟩
  | cons e evs ih =>
    simpa using ih (s.step e) (step_sum s e hsum) (step_count s e hcount)

theorem runPool_append_singleton (xs : List PoolEvent) (e : PoolEvent) :
    runPool (xs ++ [e]) = (runPool xs).step e := by
  unfold runPool
  rw [List.foldl_append]
  rfl

theorem runPool_nextId_le (events : List PoolEvent) (n : Nat)
    (hn : ∀ k, k ≤ events.length → (runPool (events.take k)).held.length ≤ n) :
    (runPool events).nextId ≤ n := by
  induction events using List.reverseRecOn with
  | nil => exact Nat.zero_le n
  | append_singleton xs e ih =>
    have hxs : (runPool xs).nextId ≤ n := by
      apply ih
      intro k hk
      have h1 : (xs ++ [e]).take k = xs.take k := List.take_append_of_le_length hk
      have h2 := hn k (by simp; omega)
      rwa [h1] at h2
    have hsum : (runPool xs).nextId
        = (runPool xs).idle.length + (runPool xs).held.length :=
      (foldl_inv xs AllocatorPool.new rfl new_count).1
    have hfull := hn (xs ++ [e]).length le_rfl
    rw [List.take_length] at hfull
    rw [runPool_append_singleton] at hfull ⊢
    cases e with
    | get =>
      rw [step_get] at hfull ⊢
      cases hidle : (runPool xs).idle with
      | cons a rest => rw [get_eq_pop _ a rest hidle]; exact hxs
      | nil =>
        rw [get_eq_construct _ hidle] at hfull ⊢
        have hfull2 : ((runPool xs).nextId :: (runPool xs).held).length ≤ n := hfull
        show (runPool xs).nextId + 1 ≤ n
        rw [hidle] at hsum
        simp only [List.length_nil, Nat.zero_add] at hsum
        simp only [List.length_cons] at hfull2
        omega
    | put k =>
      rw [step_put]
      by_cases hk : k ∈ (runPool xs).held
      · rw [put_eq_return _ k hk]; exact hxs
      · rw [put_eq_skip _ k hk]; exact hxs

/-- **C5**: `AllocatorPool::new` constructs no `FixedSizeAllocator` (the id
counter is 0 and the idle list empty), and `get()` constructs a new one
only when the idle list is empty; therefore in any execution in which at
most `n` guards are outstanding simultaneously (`held` never exceeds `n`
after any step), at most `n` backing allocations are ever created
(`nextId ≤ n`), and every allocator once created is at each moment either
idle in the pool or held by exactly one guard, never both and never
neither (`countInv`). -/
theorem allocator_pool_bound (events : List PoolEvent) (n : Nat)
    (hn : ∀ k, k ≤ events.length → (runPool (events.take k)).held.length ≤ n) :
    AllocatorPool.new.nextId = 0 ∧ AllocatorPool.new.idle = [] ∧
    (runPool events).nextId ≤ n ∧ countInv (runPool events) :=
  ⟨rfl, rfl, runPool_nextId_le events n hn,
    (foldl_inv events AllocatorPool.new rfl new_count).2⟩

/-- Witness for `allocator_pool_bound`: the execution get, drop, get with
at most one guard outstanding creates exactly one allocator and reuses it. -/
theorem allocator_pool_bound_witness :
    (∀ k, k ≤ ([PoolEvent.get, PoolEvent.put 0, PoolEvent.get] : List PoolEvent).length →
      (runPool (([PoolEvent.get, PoolEvent.put 0,
        PoolEvent.get] : List PoolEvent).take k)).held.length ≤ 1) ∧
    (AllocatorPool.new.nextId = 0 ∧ AllocatorPool.new.idle = [] ∧
      (runPool [PoolEvent.get, PoolEvent.put 0, PoolEvent.get]).nextId ≤ 1 ∧
      countInv (runPool [PoolEvent.get, PoolEvent.put 0, PoolEvent.get])) :=
  ⟨by decide,
    allocator_pool_bound [PoolEvent.get, PoolEvent.put 0, PoolEvent.get] 1 (by decide)⟩

end OxcPool

namespace OxcRuntime

/-- **C1 counterexample**: the entry paths are *not* sorted by descending
path-segment depth.  For entries `a/b` (components `[0, 1]`, two segments)
and `z` (components `[25]`, one segment), the code's sort — descending
`Path` order — puts the one-segment path `z` first, because `z` compares
greater than `a/b` in the first component.  So the output violates "a path
with strictly more segments precedes every path with strictly fewer". -/
theorem entry_sort_depth_counterexample :
    ¬List.Pairwise (fun p q : List Nat => ¬p.length < q.length)
      (sortPathsDesc [[0, 1], [25]]) := by
  decide

/-- **C1 (amended)**: before any wave is processed, the deduplicated entry
paths are sorted into descending *lexicographic path order* (Rust's `Path`
ordering on component sequences, reversed) — the result is a permutation of
the entries in which every earlier path is ≥ every later path in path
order.  Segment depth is not the sort key. -/
theorem entry_sort_descending_path_order (paths : List (List Nat)) :
    List.Sorted pathGeDesc (sortPathsDesc paths) ∧ (sortPathsDesc paths).Perm paths :=
  ⟨List.sorted_insertionSort pathGeDesc paths, List.perm_insertionSort pathGeDesc paths⟩

/-- **C6 counterexample**: a section whose parse fails on a source detected
as Flow delivers *no* diagnostic: `process_source_section` returns
`Err(vec![])` (`runtime.rs` line 1441) and the empty message list is not
sent (`runtime.rs` line 982).  So "at least one diagnostic for that section
is delivered" fails for this section. -/
theorem flow_failure_suppressed :
    process_source_section { errors := [7], isFlowLanguage := true } []
        = Except.error [] ∧
    section_failure_diagnostics
        [process_source_section { errors := [7], isFlowLanguage := true } []] = [] := by
  decide

/-- Auxiliary: `linted_sections` distributes over append. -/
theorem linted_sections_append (l1 l2 : List (Except (List Diag) Unit)) :
    linted_sections (l1 ++ l2) = linted_sections l1 ++ linted_sections l2 :=
  List.filterMap_append l1 l2 _

/-- **C6 (amended)**: for every file section whose parsing fails with the
source *not* detected as Flow, or whose semantic analysis fails, the
section's result carries a non-empty diagnostic list which is delivered to
the diagnostic sink; and the failing section does not prevent any other
section from being linted (the `Ok` sections of the same file are linted
exactly as if the failing section were absent; other files run in
independent tasks).  Flow-detected parse failures are deliberately
suppressed (empty diagnostic list, nothing delivered). -/
theorem failing_section_delivers_diagnostics (ret : ParserReturn)
    (semanticErrors : List Diag)
    (h : (ret.errors ≠ [] ∧ ret.isFlowLanguage = false) ∨
      (ret.errors = [] ∧ semanticErrors ≠ [])) :
    ∃ msgs, process_source_section ret semanticErrors = Except.error msgs ∧
      msgs ≠ [] ∧
      section_failure_diagnostics [process_source_section ret semanticErrors]
        = [msgs] ∧
      ∀ pre post : List (Except (List Diag) Unit),
        linted_sections (pre ++ process_source_section ret semanticErrors :: post)
          = linted_sections (pre ++ post) := by
  rcases h with ⟨hne, hflow⟩ | ⟨he, hsem⟩
  · refine ⟨ret.errors, ?_, hne, ?_, ?_⟩
    · simp [process_source_section, hne, hflow]
    · simp [process_source_section, section_failure_diagnostics, hne, hflow]
    · intro pre post
      simp [process_source_section, hne, hflow, linted_sections_append,
        linted_sections]
  · refine ⟨semanticErrors, ?_, hsem, ?_, ?_⟩
    · simp [process_source_section, he, hsem]
    · simp [process_source_section, section_failure_diagnostics, he, hsem]
    · intro pre post
      simp [process_source_section, he, hsem, linted_sections_append, linted_sections]

/-- Witness for `failing_section_delivers_diagnostics`: a section with one
non-Flow parse error. -/
theorem failing_section_delivers_diagnostics_witness :
    (((ParserReturn.mk [3] false).errors ≠ [] ∧
        (ParserReturn.mk [3] false).isFlowLanguage = false) ∨
      ((ParserReturn.mk [3] false).errors = [] ∧ ([] : List Diag) ≠ [])) ∧
    (∃ msgs, process_source_section ⟨[3], false⟩ [] = Except.error msgs ∧
      msgs ≠ [] ∧
      section_failure_diagnostics [process_source_section ⟨[3], false⟩ []] = [msgs] ∧
      ∀ pre post : List (Except (List Diag) Unit),
        linted_sections (pre ++ process_source_section ⟨[3], false⟩ [] :: post)
          = linted_sections (pre ++ post)) :=
  ⟨Or.inl ⟨by decide, rfl⟩,
    failing_section_delivers_diagnostics ⟨[3], false⟩ [] (Or.inl ⟨by decide, rfl⟩)⟩

/-- **C7**: during a run with fixing enabled, the per-file callback feeds
the messages of *all* sections of the file to one `Fixer` over one
copy-on-write buffer; the file-system write happens exactly when that
buffer became owned, which happens exactly when the fixer reported an
applied fix — so there is at most one write per file per run (the callback
runs once per entry file, by the wave-dispatch deduplication), its payload is the single
accumulated buffer, and a file whose lint produced no applied fix is never
written. -/
theorem single_write_fix (fixEnabled : Bool) (sourceText : List Char)
    (fr : FixResult) :
    file_writes fixEnabled sourceText fr
        = (if fixEnabled = true ∧ fr.fixed = true then [fr.fixedCode] else []) ∧
    (file_writes fixEnabled sourceText fr).length ≤ 1 ∧
    fix_buffer fixEnabled sourceText fr
        = (if fixEnabled = true ∧ fr.fixed = true then Cow.owned fr.fixedCode
          else Cow.borrowed) := by
  have hr : replace_whole_range sourceText fr.fixedCode = fr.fixedCode := by
    simp [replace_whole_range]
  cases fixEnabled <;> rcases hf : fr.fixed <;>
    simp [file_writes, fix_buffer, hr, hf]

/-- **C9**: the linking step writes only the *last* section record of a
dependency into the requesting module's loaded-modules table: starting from
an empty table, linking one request `(spec, path)` yields a table whose
entry at `spec` is `getLast?` of the dependency's record list — earlier
section records are never linked, and when the dependency produced no
successful section record at all (`graph path = []`, since
`modules_by_path` keeps only `Ok` records) the entry is silently absent. -/
theorem link_uses_last_section (graph : PathId → List RecordId)
    (spec : Specifier) (path : PathId) :
    ∀ s, link_loaded_modules graph [(spec, path)] (fun _ => none) s
      = if s = spec then (graph path).getLast? else none := by
  intro s
  unfold link_loaded_modules
  simp only [List.foldl_cons, List.foldl_nil]
  cases h : (graph path).getLast? with
  | none => simp [h]
  | some r => simp [h]

/-- **C10**: a path with no extension, or whose extension is neither a
recognized source type nor a partial-loader extension, is skipped silently:
`process_path` yields the default `ProcessedModule` (no section records, no
retained content) and no diagnostic is emitted, for every choice of the two
extension lists and of the downstream processing. -/
theorem unsupported_extension_skipped (validExts loaderExts : List (List Char))
    (fileName : List Char) (rest : ProcessedModule × List Diag)
    (h : extension fileName = none ∨
      ∃ ext, extension fileName = some ext ∧ ext ∉ validExts ∧ ext ∉ loaderExts) :
    process_path validExts loaderExts fileName rest
      = (ProcessedModule.defaultValue, []) := by
  rcases h with h | ⟨ext, hext, hv, hl⟩
  · simp [process_path, h]
  · simp [process_path, hext, hv, hl]

/-- Witness for `unsupported_extension_skipped`: the file `notes.txt` whose
extension `txt` is in neither list; the downstream processing (which would
have produced a record, content and a diagnostic) is discarded. -/
theorem unsupported_extension_skipped_witness :
    (extension "notes.txt".toList = none ∨
      ∃ ext, extension "notes.txt".toList = some ext ∧
        ext ∉ ["js".toList, "ts".toList] ∧ ext ∉ ["vue".toList, "astro".toList]) ∧
    process_path ["js".toList, "ts".toList] ["vue".toList, "astro".toList]
        "notes.txt".toList
        ({ sectionRecords := [Except.ok ()], hasContent := true }, [37])
      = (ProcessedModule.defaultValue, []) :=
  ⟨Or.inr ⟨"txt".toList, by decide, by decide, by decide⟩,
    unsupported_extension_skipped _ _ _ _
      (Or.inr ⟨"txt".toList, by decide, by decide, by decide⟩)⟩

theorem dispatch_new_fst_mem (reqs : List PathId) :
    ∀ (enc : List PathId) (x : PathId),
      x ∈ (dispatch_new enc reqs).1 ↔ x ∈ enc ∨ x ∈ reqs := by
  induction reqs with
  | nil => intro enc x; simp [dispatch_new]
  | cons r rs ih =>
    intro enc x
    by_cases hr : r ∈ enc
    · rw [dispatch_new, if_pos hr, ih enc x]
      constructor
      · rintro (h | h)
        · exact Or.inl h
        · exact Or.inr (List.mem_cons_of_mem r h)
      · rintro (h | h)
        · exact Or.inl h
        · rcases List.mem_cons.mp h with rfl | h
          · exact Or.inl hr
          · exact Or.inr h
    · rw [dispatch_new, if_neg hr]
      show x ∈ (dispatch_new (r :: enc) rs).1 ↔ _
      rw [ih (r :: enc) x, List.mem_cons]
      constructor
      · rintro ((rfl | h) | h)
        · exact Or.inr (List.mem_cons_self x rs)
        · exact Or.inl h
        · exact Or.inr (List.mem_cons_of_mem r h)
      · rintro (h | h)
        · exact Or.inl (Or.inr h)
        · rcases List.mem_cons.mp h with rfl | h
          · exact Or.inl (Or.inl rfl)
          · exact Or.inr h

theorem dispatch_new_snd_mem (reqs : List PathId) :
    ∀ (enc : List PathId) (x : PathId),
      x ∈ (dispatch_new enc reqs).2 ↔ x ∈ reqs ∧ x ∉ enc := by
  induction reqs with
  | nil => intro enc x; simp [dispatch_new]
  | cons r rs ih =>
    intro enc x
    by_cases hr : r ∈ enc
    · rw [dispatch_new, if_pos hr, ih enc x]
      constructor
      · rintro ⟨h1, h2⟩
        exact ⟨List.mem_cons_of_mem r h1, h2⟩
      · rintro ⟨h1, h2⟩
        rcases List.mem_cons.mp h1 with rfl | h1
        · exact absurd hr h2
        · exact ⟨h1, h2⟩
    · rw [dispatch_new, if_neg hr]
      show x ∈ r :: (dispatch_new (r :: enc) rs).2 ↔ _
      rw [List.mem_cons, ih (r :: enc) x]
      constructor
      · rintro (rfl | ⟨h1, h2⟩)
        · exact ⟨List.mem_cons_self x rs, hr⟩
        · exact ⟨List.mem_cons_of_mem r h1,
            fun hx => h2 (List.mem_cons_of_mem r hx)⟩
      · rintro ⟨h1, h2⟩
        rcases List.mem_cons.mp h1 with rfl | h1
        · exact Or.inl rfl
        · by_cases hxr : x = r
          · exact Or.inl hxr
          · refine Or.inr ⟨h1, fun hmem => ?_⟩
            rcases List.mem_cons.mp hmem with rfl | hmem
            · exact hxr rfl
            · exact h2 hmem

theorem dispatch_new_snd_nodup (reqs : List PathId) :
    ∀ enc : List PathId, (dispatch_new enc reqs).2.Nodup := by
  induction reqs with
  | nil => intro enc; simp [dispatch_new]
  | cons r rs ih =>
    intro enc
    by_cases hr : r ∈ enc
    · rw [dispatch_new, if_pos hr]; exact ih enc
    · rw [dispatch_new, if_neg hr]
      show (r :: (dispatch_new (r :: enc) rs).2).Nodup
      rw [List.nodup_cons]
      refine ⟨?_, ih (r :: enc)⟩
      intro hmem
      have := (dispatch_new_snd_mem rs (r :: enc) r).mp hmem
      exact this.2 (List.mem_cons_self r enc)

theorem dispatch_step_inv (enc disp reqs : List PathId)
    (h1 : disp.Nodup) (h2 : ∀ x, x ∈ disp ↔ x ∈ enc) :
    (disp ++ (dispatch_new enc reqs).2).Nodup ∧
    (∀ x, x ∈ disp ++ (dispatch_new enc reqs).2 ↔ x ∈ (dispatch_new enc reqs).1) := by
  constructor
  · rw [List.nodup_append]
    refine ⟨h1, dispatch_new_snd_nodup reqs enc, ?_⟩
    intro x hx hx2
    have h3 := (dispatch_new_snd_mem reqs enc x).mp hx2
    exact h3.2 ((h2 x).mp hx)
  · intro x
    rw [List.mem_append, dispatch_new_fst_mem, h2 x, dispatch_new_snd_mem]
    constructor
    · rintro (h | ⟨ha, _⟩)
      · exact Or.inl h
      · exact Or.inr ha
    · rintro (h | h)
      · exact Or.inl h
      · by_cases hxe : x ∈ enc
        · exact Or.inl hxe
        · exact Or.inr ⟨h, hxe⟩

theorem sched_loop_inv (deps : PathId → List PathId) (fuel : Nat) :
    ∀ (queue enc disp : List PathId),
      disp.Nodup → (∀ x, x ∈ disp ↔ x ∈ enc) →
      ((sched_loop deps fuel queue enc disp).2.Nodup ∧
        (∀ x, x ∈ (sched_loop deps fuel queue enc disp).2
          ↔ x ∈ (sched_loop deps fuel queue enc disp).1) ∧
        (∀ x, x ∈ enc → x ∈ (sched_loop deps fuel queue enc disp).1)) := by
  induction fuel with
  | zero =>
    intro queue enc disp h1 h2
    rw [sched_loop]
    exact ⟨h1, h2, fun _ hx => hx⟩
  | succ fuel ih =>
    intro queue enc disp h1 h2
    cases queue with
    | nil =>
      rw [sched_loop]
      exact ⟨h1, h2, fun _ hx => hx⟩
    | cons p queue =>
      simp only [sched_loop]
      obtain ⟨g1, g2⟩ := dispatch_step_inv enc disp (deps p) h1 h2
      obtain ⟨r1, r2, r3⟩ := ih (queue ++ (dispatch_new enc (deps p)).2)
        (dispatch_new enc (deps p)).1 (disp ++ (dispatch_new enc (deps p)).2) g1 g2
      refine ⟨r1, r2, fun x hx => r3 x ?_⟩
      rw [dispatch_new_fst_mem]
      exact Or.inl hx

theorem run_waves_inv_aux (deps : PathId → List PathId) (groupSize fuel : Nat) :
    ∀ (n : Nat) (entries enc disp : List PathId), entries.length ≤ n →
      disp.Nodup → (∀ x, x ∈ disp ↔ x ∈ enc) →
      ((run_waves deps groupSize fuel entries enc disp).2.Nodup ∧
        (∀ x, x ∈ (run_waves deps groupSize fuel entries enc disp).2
          ↔ x ∈ (run_waves deps groupSize fuel entries enc disp).1) ∧
        (∀ x, x ∈ enc ∨ x ∈ entries
          → x ∈ (run_waves deps groupSize fuel entries enc disp).1)) := by
  intro n
  induction n with
  | zero =>
    intro entries enc disp hlen h1 h2
    have hnil : entries = [] := List.eq_nil_of_length_eq_zero (Nat.le_zero.mp hlen)
    subst hnil
    rw [run_waves]
    refine ⟨h1, h2, fun x hx => ?_⟩
    rcases hx with hx | hx
    · exact hx
    · simp at hx
  | succ n ihn =>
    intro entries enc disp hlen h1 h2
    cases entries with
    | nil =>
      rw [run_waves]
      refine ⟨h1, h2, fun x hx => ?_⟩
      rcases hx with hx | hx
      · exact hx
      · simp at hx
    | cons e rest =>
      simp only [run_waves]
      obtain ⟨g1, g2⟩ :=
        dispatch_step_inv enc disp (e :: rest.take (groupSize - 1)) h1 h2
      obtain ⟨s1, s2, s3⟩ := sched_loop_inv deps fuel
        (dispatch_new enc (e :: rest.take (groupSize - 1))).2
        (dispatch_new enc (e :: rest.take (groupSize - 1))).1
        (disp ++ (dispatch_new enc (e :: rest.take (groupSize - 1))).2) g1 g2
      have hlen2 : (rest.drop (groupSize - 1)).length ≤ n := by
        simp only [List.length_drop]
        simp only [List.length_cons] at hlen
        omega
      obtain ⟨w1, w2, w3⟩ := ihn (rest.drop (groupSize - 1))
        ((sched_loop deps fuel (dispatch_new enc (e :: rest.take (groupSize - 1))).2
          (dispatch_new enc (e :: rest.take (groupSize - 1))).1
          (disp ++ (dispatch_new enc (e :: rest.take (groupSize - 1))).2)).1)
        ((sched_loop deps fuel (dispatch_new enc (e :: rest.take (groupSize - 1))).2
          (dispatch_new enc (e :: rest.take (groupSize - 1))).1
          (disp ++ (dispatch_new enc (e :: rest.take (groupSize - 1))).2)).2)
        hlen2 s1 s2
      refine ⟨w1, w2, fun x hx => ?_⟩
      apply w3
      rcases hx with hx | hx
      · left
        apply s3
        rw [dispatch_new_fst_mem]
        exact Or.inl hx
      · rcases List.mem_cons.mp hx with rfl | hx
        · left
          apply s3
          rw [dispatch_new_fst_mem]
          exact Or.inr (List.mem_cons_self _ _)
        · by_cases hxw : x ∈ rest.take (groupSize - 1)
          · left
            apply s3
            rw [dispatch_new_fst_mem]
            exact Or.inr (List.mem_cons_of_mem e hxw)
          · right
            have hsplit := List.take_append_drop (groupSize - 1) rest
            rw [← hsplit] at hx
            rcases List.mem_append.mp hx with hx | hx
            · exact absurd hx hxw
            · exact hx

/-- **C8**: across an entire graph-mode run — all waves, with the
encountered-paths set persisting across waves — every distinct path
(entry or transitively discovered dependency) has a parse task dispatched
for it at most once (the dispatch log is duplicate-free), a task is
spawned exactly for the paths in the encountered set (no encountered path
is omitted from processing), and every entry path is encountered. -/
theorem parse_dispatch_once (deps : PathId → List PathId) (groupSize fuel : Nat)
    (entries : List PathId) :
    (run_waves deps groupSize fuel entries [] []).2.Nodup ∧
    (∀ p, p ∈ (run_waves deps groupSize fuel entries [] []).2
      ↔ p ∈ (run_waves deps groupSize fuel entries [] []).1) ∧
    (∀ p ∈ entries, p ∈ (run_waves deps groupSize fuel entries [] []).1) := by
  obtain ⟨h1, h2, h3⟩ := run_waves_inv_aux deps groupSize fuel entries.length entries
    [] [] le_rfl List.nodup_nil (by simp)
  exact ⟨h1, h2, fun p hp => h3 p (Or.inr hp)⟩

end OxcRuntime
